import Mathlib

/-!
Verification of the libplist safe value-model layer (libimobiledevice-rust).

This file gives a shallow embedding of the libplist Rust wrapper crate:
the node data model, the native-value conversion protocol
(FromPlistNode / ToPlistNode in src/libplist/src/native.rs), structural
equality (src/libplist/src/node.rs), array/dictionary views and the
deserialization entry points, together with theorems settling the stated
properties of this layer.

Modelling conventions:
- The foreign tree engine (the C libplist library) owns node storage.  A
  node is modelled by its value tree (PlistVal); engine accessors
  (plist_get_bool_val, plist_array_set_item, ...) become pure functions on
  that tree, following the engine call contract fixed in the design
  (constructors, getters and setters per tag, array and dict mutation,
  compare_node_value for scalar equality).
- Machine integers are Nat / Int with explicit reduction mod 2^w where the
  Rust code performs an "as" cast that can wrap.
- Floating-point payloads (c_double) are modelled by exact values: a
  rational number known to be exactly representable in the relevant IEEE
  format.  Rust guarantees f32-to-f64 casts are lossless and f64-to-f32
  casts round to nearest, hence act as the identity on values that are
  exactly representable in binary32; the model restricts attention to that
  exact fragment (NaN and infinities are outside the model).
- A Rust panic is modelled by Option.none; fallible conversions return
  Except PlistError.
-/

namespace LibPlist

/-- Node type tags, from libplist-sys (enum plist_type). -/
inductive plist_type where
  | Boolean
  | UInt
  | Real
  | String
  | Array
  | Dict
  | Date
  | Data
  | Key
  | Uid
  | NoType
  deriving DecidableEq, Repr

/-- Conversion error type, from src/libplist/src/error.rs.  The Utf8
variant wraps a std Utf8Error in the source; the payload is irrelevant to
the properties proved here and is dropped. -/
inductive PlistError where
  | UnsupportedType (t : plist_type)
  | Utf8
  deriving DecidableEq, Repr

/-- Exact value of a finite IEEE double: a dyadic rational m * 2^e.  The
representation is not required to be canonical; value equality is
dyadicEq.  NaN and infinities are outside the exact-value model. -/
structure Dyadic where
  m : Int
  e : Int
  deriving DecidableEq, Repr

/-- Value equality of two dyadics (the == of doubles on finite values):
m1 * 2^e1 = m2 * 2^e2, compared after shifting to the smaller exponent. -/
def dyadicEq (a b : Dyadic) : Bool :=
  if a.e ≤ b.e then a.m == b.m * 2 ^ (b.e - a.e).toNat
  else a.m * 2 ^ (a.e - b.e).toNat == b.m

/-- Value tree of a foreign libplist node.  Payloads follow the engine's
storage: booleans, uint64 integers, double reals, C-string bytes (no
interior NUL), arrays of children, dictionaries as key/child entry lists
in storage order, dates as (seconds, microseconds) i32 pairs relative to
the 2001 epoch, raw data bytes, key strings and uint64 uids. -/
inductive PlistVal where
  | bool (b : Bool)
  | uint (n : Nat)
  | real (q : Dyadic)
  | string (s : List Nat)
  | array (xs : List PlistVal)
  | dict (es : List (List Nat × PlistVal))
  | date (sec : Int) (usec : Int)
  | data (bs : List Nat)
  | key (s : List Nat)
  | uid (n : Nat)
  | null

/-- Engine node-type query (plist_get_node_type), used by Node::node_type. -/
def nodeType : PlistVal → plist_type
  | .bool _ => .Boolean
  | .uint _ => .UInt
  | .real _ => .Real
  | .string _ => .String
  | .array _ => .Array
  | .dict _ => .Dict
  | .date _ _ => .Date
  | .data _ => .Data
  | .key _ => .Key
  | .uid _ => .Uid
  | .null => .NoType

/-- Node::expect_type from src/libplist/src/node.rs: verifies that the
node has the given type, else Err(UnsupportedType(actual type)). -/
def expect_type (v : PlistVal) (t : plist_type) : Except PlistError Unit :=
  let real_ty := nodeType v
  if real_ty = t then .ok () else .error (.UnsupportedType real_ty)

/-! Machine-integer casts.  Rust "as" casts truncate to the target width;
signed targets reinterpret the low bits as two's complement. -/

/-- Rust cast to an unsigned w-bit integer: keep the low w bits. -/
def wrapU (w : Nat) (i : Int) : Nat := (i % (2 ^ w : Int)).toNat

/-- Rust cast to a signed w-bit integer: keep the low w bits and
reinterpret them as two's complement. -/
def wrapS (w : Nat) (i : Int) : Int :=
  let r := i % (2 ^ w : Int)
  if r < 2 ^ (w - 1) then r else r - 2 ^ w

/-! Engine getters (plist_get_*_val).  Each writes the payload of a node of
the matching tag into an out-parameter initialised by the caller; on a node
of another tag the out-parameter keeps its initial value.  The wrappers in
native.rs always guard the call with expect_type, so the default branch is
never reached from a successful conversion. -/

/-- Engine plist_get_bool_val (payload as u8, wrapper compares with 0). -/
def get_bool_val : PlistVal → Bool
  | .bool b => b
  | _ => false

/-- Engine plist_get_uint_val (uint64 payload). -/
def get_uint_val : PlistVal → Nat
  | .uint n => n
  | _ => 0

/-- Engine plist_get_real_val (double payload). -/
def get_real_val : PlistVal → Dyadic
  | .real q => q
  | _ => ⟨0, 0⟩

/-- Engine plist_get_string_val (C-string payload, received as bytes). -/
def get_string_val : PlistVal → List Nat
  | .string s => s
  | _ => []

/-- Engine plist_get_data_val (raw byte payload). -/
def get_data_val : PlistVal → List Nat
  | .data bs => bs
  | _ => []

/-- Engine plist_get_date_val ((seconds, microseconds) i32 payload). -/
def get_date_val : PlistVal → Int × Int
  | .date s u => (s, u)
  | _ => (0, 0)

/-! Exact-value model of the floating-point payloads. -/

/-- Exact representability of a dyadic value in an IEEE binary format with
prec mantissa bits: the value equals M * 2^E for some integer M with
|M| < 2^prec and some exponent -lo ≤ E < erange - lo.  Binary32 is
reprBin 24 149 254 and binary64 is reprBin 53 1074 2046. -/
def reprBin (prec lo erange : Nat) (d : Dyadic) : Bool :=
  d.m == 0 ||
    (List.range erange).any fun k =>
      let E : Int := (k : Int) - (lo : Int)
      if E ≤ d.e then d.m.natAbs * 2 ^ (d.e - E).toNat < 2 ^ prec
      else
        d.m % (2 ^ (E - d.e).toNat : Int) == 0 &&
          (d.m / (2 ^ (E - d.e).toNat : Int)).natAbs < 2 ^ prec

/-- Exact representability in IEEE binary32 (the f32 values). -/
def reprF32 (d : Dyadic) : Bool := reprBin 24 149 254 d

/-- Exact representability in IEEE binary64 (the f64 values). -/
def reprF64 (d : Dyadic) : Bool := reprBin 53 1074 2046 d

/-- Rust "result as f32" on a double: rounds to the nearest binary32 value
(IEEE 754 round-to-nearest), which is the identity on inputs already
exactly representable in binary32.  Only such inputs are reachable in the
claims below; the rounding applied on the remaining inputs is outside the
exact-value model and is represented by an arbitrary binary32 value. -/
def f64_as_f32 (d : Dyadic) : Dyadic := if reprF32 d then d else ⟨0, 0⟩

/-! Dictionary storage operations of the engine.  A dictionary node keeps
its entries as an ordered list of (key bytes, child) pairs. -/

/-- Engine plist_dict_get_item: the child at the first entry matching the
key, if any. -/
def dictGet (es : List (List Nat × PlistVal)) (k : List Nat) : Option PlistVal :=
  match es.find? (fun e => e.1 = k) with
  | some e => some e.2
  | none => none

/-- Engine plist_dict_set_item: replace the value at an existing key, or
append a new entry at the end. -/
def dictSet (es : List (List Nat × PlistVal)) (k : List Nat) (v : PlistVal) :
    List (List Nat × PlistVal) :=
  match es with
  | [] => [(k, v)]
  | (k', v') :: rest =>
      if k' = k then (k, v) :: rest else (k', v') :: dictSet rest k v

/-- Node::array from node.rs: the array view, after a type check. -/
def asArray (v : PlistVal) : Except PlistError (List PlistVal) := do
  let _ ← expect_type v .Array
  match v with
  | .array xs => pure xs
  | _ => pure []

/-- Node::dict from node.rs: the dictionary view, after a type check. -/
def asDict (v : PlistVal) : Except PlistError (List (List Nat × PlistVal)) := do
  let _ ← expect_type v .Dict
  match v with
  | .dict es => pure es
  | _ => pure []

/-! Date conversion (native.rs, FromPlistNode / ToPlistNode for SystemTime).
A native SystemTime instant is modelled as the integer count of
nanoseconds since the Unix epoch (positive or negative). -/

/-- Number of seconds between 1970 Jan 1st and 2001 Jan 1st
(src/libplist/src/internal.rs); leap seconds deliberately not applied. -/
def TIMESTAMP_OFFSET : Int := 978307200

/-- First stage of ToPlistNode for SystemTime: the (sec, nsec) pair
computed from self.duration_since(UNIX_EPOCH).  The Ok branch takes
(dur.as_secs() as i64, dur.subsec_nanos()); the Err branch negates and,
when the sub-second part is non-zero, borrows one second so that the
nanosecond part stays non-negative. -/
def systemTimeSecNsec (t : Int) : Int × Nat :=
  if 0 ≤ t then
    (wrapS 64 (t.toNat / 10 ^ 9 : Nat), t.toNat % 10 ^ 9)
  else
    let neg := (-t).toNat
    let s : Int := wrapS 64 (neg / 10 ^ 9 : Nat)
    let n := neg % 10 ^ 9
    if n = 0 then (-s, 0) else (-s - 1, 10 ^ 9 - n)

/-- ToPlistNode for SystemTime: plist_new_date((sec - TIMESTAMP_OFFSET) as
i32, (nsec / 1000) as i32). -/
def systemTimeToNode (t : Int) : PlistVal :=
  let sn := systemTimeSecNsec t
  .date (wrapS 32 (sn.1 - TIMESTAMP_OFFSET)) (wrapS 32 ((sn.2 / 1000 : Nat)))

/-- Nanosecond argument passed to Duration::new by FromPlistNode for
SystemTime: (x as u32) * 1000 with wrapping u32 multiplication. -/
def usecNanos (x : Int) : Nat := wrapU 32 x * 1000 % 2 ^ 32

/-- FromPlistNode for SystemTime, after reading (sec, usec) from the date
node: let sec = sec as i64 + TIMESTAMP_OFFSET; non-negative totals are
UNIX_EPOCH + Duration::new(sec, usec * 1000), negative totals are
UNIX_EPOCH - Duration::new(-sec - 1, (1000000 - usec) * 1000).
Duration::new normalizes a nanosecond argument of 1e9 or more into whole
seconds, which leaves the total nanosecond count unchanged. -/
def systemTimeFromSecUsec (sec32 usec : Int) : Int :=
  let sec := sec32 + TIMESTAMP_OFFSET
  if 0 ≤ sec then
    sec * 10 ^ 9 + (usecNanos usec : Int)
  else
    -((-sec - 1) * 10 ^ 9 + (usecNanos (10 ^ 6 - usec) : Int))

/-- FromPlistNode for SystemTime: expect PLIST_DATE, read the payload,
rebuild the instant. -/
def systemTimeFromNode (node : PlistVal) : Except PlistError Int := do
  let _ ← expect_type node .Date
  let su := get_date_val node
  pure (systemTimeFromSecUsec su.1 su.2)

/-! Native values and the conversion protocol. -/

/-- Byte-lexicographic strict order on byte strings: the Ord order of Rust
String keys (UTF-8 byte order), as used by BTreeMap. -/
def bytesLt : List Nat → List Nat → Bool
  | [], [] => false
  | [], _ :: _ => true
  | _ :: _, [] => false
  | a :: as, b :: bs => if a < b then true else if a = b then bytesLt as bs else false

/-- BTreeMap::insert on the sorted association-list model of a map with
byte-string keys: replace at an equal key, otherwise insert before the
first greater key. -/
def sortedInsert {α : Type} (es : List (List Nat × α)) (k : List Nat) (v : α) :
    List (List Nat × α) :=
  match es with
  | [] => [(k, v)]
  | (k', v') :: rest =>
      if bytesLt k k' then (k, v) :: (k', v') :: rest
      else if k = k' then (k, v) :: rest
      else (k', v') :: sortedInsert rest k v

/-- Strict ascent in byte order between adjacent keys. -/
def ascKeys : List (List Nat) → Bool
  | [] => true
  | [_] => true
  | a :: b :: r => bytesLt a b && ascKeys (b :: r)

/-- Keys strictly ascending in byte order between adjacent entries: the
invariant of the association lists that represent a BTreeMap. -/
def keysAsc {α : Type} (es : List (List Nat × α)) : Bool :=
  ascKeys (es.map Prod.fst)

/-- Shapes of the native Rust types equipped with both FromPlistNode and
ToPlistNode: the integer widths of impl_plist_type_for_number (usize and
isize on a 64-bit target), the float widths, bool, String, Vec of u8
(data), SystemTime, and the generic sequence (Vec) and ordered-map
(BTreeMap with String keys) instances. -/
inductive NTy where
  | tBool
  | tU16
  | tI16
  | tU32
  | tI32
  | tU64
  | tI64
  | tUsize
  | tIsize
  | tF32
  | tF64
  | tString
  | tData
  | tTime
  | tSeq (t : NTy)
  | tMap (t : NTy)

/-- Native values.  Unsigned integers carry a Nat, signed ones an Int,
floats an exact rational, strings and byte blobs their bytes, timestamps
the nanosecond count since the Unix epoch (negative before 1970),
sequences a list, and maps a sorted association list (the BTreeMap
model). -/
inductive NVal where
  | vBool (b : Bool)
  | vNat (n : Nat)
  | vInt (i : Int)
  | vF (q : Dyadic)
  | vStr (s : List Nat)
  | vData (bs : List Nat)
  | vTime (t : Int)
  | vSeq (l : List NVal)
  | vMap (es : List (List Nat × NVal))

mutual

/-- Typing of a native value at a native type shape, including the value
invariants of the Rust types: integer ranges, float representability,
SystemTime limited to u64 whole seconds on either side of the epoch, and
BTreeMap keys strictly ascending. -/
def hasTy : NVal → NTy → Bool
  | .vBool _, .tBool => true
  | .vNat n, .tU16 => decide (n < 2 ^ 16)
  | .vNat n, .tU32 => decide (n < 2 ^ 32)
  | .vNat n, .tU64 => decide (n < 2 ^ 64)
  | .vNat n, .tUsize => decide (n < 2 ^ 64)
  | .vInt i, .tI16 => decide (-2 ^ 15 ≤ i) && decide (i < 2 ^ 15)
  | .vInt i, .tI32 => decide (-2 ^ 31 ≤ i) && decide (i < 2 ^ 31)
  | .vInt i, .tI64 => decide (-2 ^ 63 ≤ i) && decide (i < 2 ^ 63)
  | .vInt i, .tIsize => decide (-2 ^ 63 ≤ i) && decide (i < 2 ^ 63)
  | .vF q, .tF32 => reprF32 q
  | .vF q, .tF64 => reprF64 q
  | .vStr _, .tString => true
  | .vData _, .tData => true
  | .vTime t, .tTime => decide (t.natAbs < 2 ^ 64 * 10 ^ 9)
  | .vSeq l, .tSeq t => hasTyList l t
  | .vMap es, .tMap t => hasTyMap es t && keysAsc es
  | _, _ => false

/-- Elementwise typing of a sequence. -/
def hasTyList : List NVal → NTy → Bool
  | [], _ => true
  | x :: xs, t => hasTy x t && hasTyList xs t

/-- Valuewise typing of the entries of a map. -/
def hasTyMap : List (List Nat × NVal) → NTy → Bool
  | [], _ => true
  | (_, v) :: es, t => hasTy v t && hasTyMap es t

end

mutual

/-- ToPlistNode: build a tree node from a native value.  Option.none
models a panic (the .expect on CString::new when a string or map key has
an interior NUL).  Integer natives cast with "as u64" and build a uint
node, floats widen losslessly to a double real node, strings become the
CString byte content, sequences collect the element nodes in order into a
new array node, maps iterate in BTreeMap (ascending key) order and
plist_dict_set_item each converted entry into a new dict node. -/
def toNode : NVal → Option PlistVal
  | .vBool b => some (.bool b)
  | .vNat n => some (.uint (wrapU 64 (n : Int)))
  | .vInt i => some (.uint (wrapU 64 i))
  | .vF q => some (.real q)
  | .vStr s => if s.contains 0 then none else some (.string s)
  | .vData bs => some (.data bs)
  | .vTime t => some (systemTimeToNode t)
  | .vSeq l => (toNodeList l).map .array
  | .vMap es =>
      (toNodeEntries es).map fun l => .dict (l.foldl (fun d e => dictSet d e.1 e.2) [])

/-- Children of the array node built from a sequence. -/
def toNodeList : List NVal → Option (List PlistVal)
  | [] => some []
  | v :: vs =>
      match toNode v, toNodeList vs with
      | some p, some rest => some (p :: rest)
      | _, _ => none

/-- Converted (key, child) pairs of a map, in iteration order; the key is
checked for interior NUL by ToCStr (panic on failure). -/
def toNodeEntries : List (List Nat × NVal) → Option (List (List Nat × PlistVal))
  | [] => some []
  | (k, v) :: es =>
      if k.contains 0 then none
      else
        match toNode v, toNodeEntries es with
        | some p, some rest => some ((k, p) :: rest)
        | _, _ => none

end

/-- Elementwise conversion loop of FromPlistNode for Vec: convert each
child in order, aborting at the first failing member. -/
def vecFromChildren (f : PlistVal → Except PlistError NVal) :
    List PlistVal → Except PlistError (List NVal)
  | [] => .ok []
  | x :: xs => do
      let v ← f x
      let rest ← vecFromChildren f xs
      pure (v :: rest)

/-- FromPlistNode for Vec: take the array view of the node, then convert
the children elementwise. -/
def vecFromNode (f : PlistVal → Except PlistError NVal) (node : PlistVal) :
    Except PlistError (List NVal) := do
  let xs ← asArray node
  vecFromChildren f xs

/-- Entry loop of the map FromPlistNode impls
(impl_from_plist_node_for_map): iterate the dictionary entries in storage
order, convert each value (aborting at the first failure), and insert into
the accumulated result map. -/
def mapFromEntries (f : PlistVal → Except PlistError NVal) :
    List (List Nat × PlistVal) → List (List Nat × NVal) →
      Except PlistError (List (List Nat × NVal))
  | [], acc => .ok acc
  | (k, v) :: es, acc => do
      let w ← f v
      mapFromEntries f es (sortedInsert acc k w)

/-- FromPlistNode for BTreeMap with String keys: take the dictionary view,
then run the entry loop from the empty map.  The key transform (&k as
&str).to_owned() copies the key bytes without UTF-8 validation. -/
def mapFromNode (f : PlistVal → Except PlistError NVal) (node : PlistVal) :
    Except PlistError (List (List Nat × NVal)) := do
  let es ← asDict node
  mapFromEntries f es []

/-- FromPlistNode dispatch over the native type shapes.  Each integer and
float case is an instance of impl_plist_type_for_number (expect PLIST_UINT
or PLIST_REAL, read the payload, cast with "as"); tString is FromPlistNode
for String through MString (raw C-string bytes copied without UTF-8
validation, MString::from_raw_unchecked); tData and tTime follow
native.rs; tSeq and tMap are the generic Vec and map impls. -/
def fromNode : NTy → PlistVal → Except PlistError NVal
  | .tBool, node => do
      let _ ← expect_type node .Boolean
      pure (.vBool (get_bool_val node))
  | .tU16, node => do
      let _ ← expect_type node .UInt
      pure (.vNat (get_uint_val node % 2 ^ 16))
  | .tI16, node => do
      let _ ← expect_type node .UInt
      pure (.vInt (wrapS 16 (get_uint_val node : Int)))
  | .tU32, node => do
      let _ ← expect_type node .UInt
      pure (.vNat (get_uint_val node % 2 ^ 32))
  | .tI32, node => do
      let _ ← expect_type node .UInt
      pure (.vInt (wrapS 32 (get_uint_val node : Int)))
  | .tU64, node => do
      let _ ← expect_type node .UInt
      pure (.vNat (get_uint_val node))
  | .tI64, node => do
      let _ ← expect_type node .UInt
      pure (.vInt (wrapS 64 (get_uint_val node : Int)))
  | .tUsize, node => do
      let _ ← expect_type node .UInt
      pure (.vNat (get_uint_val node))
  | .tIsize, node => do
      let _ ← expect_type node .UInt
      pure (.vInt (wrapS 64 (get_uint_val node : Int)))
  | .tF32, node => do
      let _ ← expect_type node .Real
      pure (.vF (f64_as_f32 (get_real_val node)))
  | .tF64, node => do
      let _ ← expect_type node .Real
      pure (.vF (get_real_val node))
  | .tString, node => do
      let _ ← expect_type node .String
      pure (.vStr (get_string_val node))
  | .tData, node => do
      let _ ← expect_type node .Data
      pure (.vData (get_data_val node))
  | .tTime, node => (systemTimeFromNode node).map .vTime
  | .tSeq t, node => (vecFromNode (fromNode t) node).map .vSeq
  | .tMap t, node => (mapFromNode (fromNode t) node).map .vMap

/-- Date payload window: the floor-seconds of the instant, shifted to the
2001 epoch, fit the i32 seconds field of the date node. -/
def dateInRange (t : Int) : Bool :=
  decide (-2 ^ 31 ≤ (systemTimeSecNsec t).1 - TIMESTAMP_OFFSET) &&
    decide ((systemTimeSecNsec t).1 - TIMESTAMP_OFFSET < 2 ^ 31)

mutual

/-- Domain on which the to-then-from round trip is exact: strings and map
keys free of interior NUL (no panic on conversion), timestamps on whole
microseconds with seconds inside the i64 range (no wrap in the as-i64
cast) and floor-seconds inside the i32 date window.  All other values are
unrestricted. -/
def rtOk : NVal → Bool
  | .vStr s => !s.contains 0
  | .vTime t =>
      (t % 1000 == 0) && decide (t.natAbs < 2 ^ 63 * 10 ^ 9) && dateInRange t
  | .vSeq l => rtOkList l
  | .vMap es => rtOkMap es
  | _ => true

/-- Round-trip domain, elementwise on a sequence. -/
def rtOkList : List NVal → Bool
  | [] => true
  | x :: xs => rtOk x && rtOkList xs

/-- Round-trip domain on map entries (keys NUL-free). -/
def rtOkMap : List (List Nat × NVal) → Bool
  | [] => true
  | (k, v) :: es => !k.contains 0 && rtOk v && rtOkMap es

end

/-! Structural equality (PartialEq for Node, node.rs). -/

/-- Engine plist_compare_node_value, per the engine contract: scalar nodes
of the same tag compare by payload value, nodes of different tags are
unequal, and composite nodes compare by address in the engine.  Node::eq
handles same-tag composite pairs itself, so the only composite pairs that
reach the engine comparison here are distinct nodes of different tags
(hence false); the same-tag composite branches are likewise false for the
distinct nodes Node::eq works on. -/
def engineCompare : PlistVal → PlistVal → Bool
  | .bool a, .bool b => a == b
  | .uint a, .uint b => a == b
  | .real a, .real b => dyadicEq a b
  | .string a, .string b => a == b
  | .date s1 u1, .date s2 u2 => s1 == s2 && u1 == u2
  | .data a, .data b => a == b
  | .key a, .key b => a == b
  | .uid a, .uid b => a == b
  | .null, .null => true
  | _, _ => false

mutual

/-- PartialEq for Node (node.rs): array nodes compare their child
iterators elementwise in order, dictionary nodes compare lengths and then
look every left entry up by key on the right, and every other pair
delegates to the engine value comparison. -/
def nodeEq : PlistVal → PlistVal → Bool
  | .array xs, .array ys => nodeListEq xs ys
  | .dict xs, .dict ys => xs.length == ys.length && nodeDictLe xs ys
  | a, b => engineCompare a b

/-- Iterator::eq of the two child sequences of array nodes. -/
def nodeListEq : List PlistVal → List PlistVal → Bool
  | [], [] => true
  | x :: xs, y :: ys => nodeEq x y && nodeListEq xs ys
  | _, _ => false

/-- The all-loop of the dictionary case of Node::eq: every left entry is
found on the right at its own key with an equal value. -/
def nodeDictLe : List (List Nat × PlistVal) → List (List Nat × PlistVal) → Bool
  | [], _ => true
  | (k, v) :: rest, ys =>
      (match dictGet ys k with
        | some w => nodeEq v w
        | none => false) &&
        nodeDictLe rest ys

end

/-! Array view mutation (node.rs, ArrayNode). -/

/-- ArrayNode::set: plist_array_set_item replaces (and frees) the child at
the index; out-of-bounds indices are a fatal contract violation of the
engine, never exercised here. -/
def arraySet (xs : List PlistVal) (i : Nat) (item : PlistVal) : List PlistVal :=
  xs.set i item

/-- ArrayNode::insert: plist_array_insert_item inserts the child before
the index. -/
def arrayInsert (xs : List PlistVal) (i : Nat) (item : PlistVal) : List PlistVal :=
  xs.insertIdx i item

/-- ArrayNode::remove: plist_array_remove_item removes the child at the
index. -/
def arrayRemove (xs : List PlistVal) (i : Nat) : List PlistVal :=
  xs.eraseIdx i

/-! Deserialization (node.rs, OwnedNode). -/

/-- OwnedNode::deserialize (node.rs): call the engine reader with an
output slot initialised to null, then wrap the slot with try_from_ptr,
which yields None exactly when the slot is still null.  The reader
argument is the engine codec entry point (plist_from_xml or
plist_from_bin), modelled as returning the parsed node or none for a
null write. -/
def deserialize (reader : List Nat → Option PlistVal) (data : List Nat) :
    Option PlistVal :=
  match reader data with
  | some node => some node
  | none => none

/-- Modelled from the spec: the engine binary codec plist_from_bin is
code outside this repository (the foreign C engine).  Per the fixed
external-interface contract the compact binary form begins with an 8-byte
magic tag (ASCII "bplist00") and the engine reports parse failure by
writing a null node; input without the magic tag is therefore rejected.
What the engine produces for accepted input is irrelevant to the claims
and is left as a placeholder node. -/
def plist_from_bin (data : List Nat) : Option PlistVal :=
  if data.take 8 = [98, 112, 108, 105, 115, 116, 48, 48] then some .null
  else none

/-- Modelled from the spec: the engine XML codec plist_from_xml is code
outside this repository (the foreign C engine).  The textual form is an
XML property-list document, so an input whose first non-whitespace byte
is not the tag opener cannot be a document and is rejected by writing a
null node.  What the engine produces for accepted input is irrelevant to
the claims and is left as a placeholder node. -/
def plist_from_xml (data : List Nat) : Option PlistVal :=
  match data.dropWhile (fun b => b = 32 || b = 9 || b = 10 || b = 13) with
  | 60 :: _ => some .null
  | _ => none

/-- OwnedNode::from_xml: deserialize with the engine XML reader. -/
def from_xml (data : List Nat) : Option PlistVal :=
  deserialize plist_from_xml data

/-- OwnedNode::from_binary: deserialize with the engine binary reader. -/
def from_binary (data : List Nat) : Option PlistVal :=
  deserialize plist_from_bin data

/-! Parent, index and key queries (node.rs).  A borrowed node inside an
owned tree is addressed by the path of steps from the root. -/

/-- One step from a composite node down to a child: an array index or a
dictionary key. -/
inductive Step where
  | inArr (i : Nat)
  | inDict (k : List Nat)
  deriving DecidableEq

/-- Child of a node along one step. -/
def childAt (v : PlistVal) : Step → Option PlistVal
  | .inArr i =>
      match v with
      | .array xs => xs[i]?
      | _ => none
  | .inDict k =>
      match v with
      | .dict es => dictGet es k
      | _ => none

/-- Node addressed by a path of steps from the root of an owned tree. -/
def nodeAt (root : PlistVal) : List Step → Option PlistVal
  | [] => some root
  | s :: p =>
      match childAt root s with
      | some c => nodeAt c p
      | none => none

/-- Engine plist_get_parent: the node one step up the tree, null at the
root (Node::parent wraps the null into None via try_from_ptr). -/
def parentAt (root : PlistVal) (path : List Step) : Option PlistVal :=
  if path = [] then none else nodeAt root path.dropLast

/-- Engine plist_array_get_item_index, per the engine contract: the
position of a node among its parent array's children, which is the final
array step of its path.  The wrapper only calls it after checking that
the parent is an array node. -/
def item_index (path : List Step) : Nat :=
  match path.getLast? with
  | some (.inArr i) => i
  | _ => 0

/-- Node::get_index_in_array (node.rs): Some(engine item index) when the
parent exists and its node type is PLIST_ARRAY, None otherwise. -/
def get_index_in_array (root : PlistVal) (path : List Step) : Option Nat :=
  match parentAt root path with
  | some p => if nodeType p = .Array then some (item_index path) else none
  | none => none

/-- Engine plist_dict_get_item_key, per the engine contract: writes the
key under which the node sits when its direct parent is a dictionary
node, and leaves the output slot null otherwise. -/
def dict_item_key (root : PlistVal) (path : List Step) : Option (List Nat) :=
  match parentAt root path with
  | some p =>
      if nodeType p = .Dict then
        match path.getLast? with
        | some (.inDict k) => some k
        | _ => none
      else none
  | none => none

/-- Node::get_key_in_dict (node.rs): wraps the engine key slot with a
null check, None exactly when the slot stays null. -/
def get_key_in_dict (root : PlistVal) (path : List Step) : Option (List Nat) :=
  dict_item_key root path

/-! Theorems. -/

/-- C10: ToPlistNode for str (native.rs) panics (the .expect on
CString::new) when the string slice holds an interior NUL byte, and
succeeds for every NUL-free string, producing the string node carrying
those bytes. -/
theorem c10_str_interior_nul (s : List Nat) :
    (s.contains 0 = true → toNode (.vStr s) = none) ∧
    (s.contains 0 = false → toNode (.vStr s) = some (.string s)) := by
  constructor <;> intro h <;> simp only [toNode, h] <;> simp

/-- Witness for C10 at the strings "a\x00b" and "foo". -/
theorem c10_witness :
    ([97, 0, 98] : List Nat).contains 0 = true ∧ toNode (.vStr [97, 0, 98]) = none ∧
    ([102, 111, 111] : List Nat).contains 0 = false ∧
      toNode (.vStr [102, 111, 111]) = some (.string [102, 111, 111]) :=
  ⟨by decide, (c10_str_interior_nul [97, 0, 98]).1 (by decide), by decide,
    (c10_str_interior_nul [102, 111, 111]).2 (by decide)⟩

/-- C9: impl_plist_type_for_number (native.rs): recovering an integer type
narrower than 64 bits from a uint node applies the wrapping "as" cast to
the stored 64-bit value — reduction mod 2^w, reinterpreted as two's
complement for the signed widths — and never errors; stored values inside
the target range are recovered exactly. -/
theorem c9_narrow_integer_wrapping (u : Nat) :
    (fromNode .tU16 (.uint u) = .ok (.vNat (u % 2 ^ 16)) ∧
      fromNode .tU32 (.uint u) = .ok (.vNat (u % 2 ^ 32)) ∧
      fromNode .tI16 (.uint u) = .ok (.vInt (wrapS 16 (u : Int))) ∧
      fromNode .tI32 (.uint u) = .ok (.vInt (wrapS 32 (u : Int)))) ∧
    (u < 2 ^ 16 → fromNode .tU16 (.uint u) = .ok (.vNat u)) ∧
    (u < 2 ^ 32 → fromNode .tU32 (.uint u) = .ok (.vNat u)) ∧
    (u < 2 ^ 15 → fromNode .tI16 (.uint u) = .ok (.vInt (u : Int))) ∧
    (u < 2 ^ 31 → fromNode .tI32 (.uint u) = .ok (.vInt (u : Int))) := by
  refine ⟨⟨rfl, rfl, rfl, rfl⟩, ?_, ?_, ?_, ?_⟩ <;> intro h <;>
    simp [fromNode, expect_type, nodeType, get_uint_val, wrapS] <;> omega

/-- Witness for C9 at stored values 70000 and 65514 (= -22 as u64 low
bits). -/
theorem c9_witness :
    fromNode .tU16 (.uint 70000) = .ok (.vNat 4464) ∧
    fromNode .tI16 (.uint 65514) = .ok (.vInt (-22)) ∧
    (70000 : Nat) < 2 ^ 32 ∧ fromNode .tU32 (.uint 70000) = .ok (.vNat 70000) :=
  ⟨by rfl, by rfl, by decide, (c9_narrow_integer_wrapping 70000).2.2.1 (by decide)⟩

/-- C4 (refuting the claimed behaviour): FromPlistNode for String
(native.rs) performs no UTF-8 validation — it copies the bytes obtained
via MString::from_raw_unchecked and an unchecked str deref — so a string
node with non-UTF-8 content (here the lone byte 0xFF) converts to Ok
with those bytes instead of failing with the Utf8 error documented in
error.rs; no code path of String::from_plist_node can construct
PlistError::Utf8. -/
theorem c4_no_utf8_validation :
    fromNode .tString (.string [255]) = .ok (.vStr [255]) ∧
    fromNode .tString (.string [255]) ≠ .error .Utf8 := by
  refine ⟨rfl, ?_⟩
  intro h
  simp [fromNode, expect_type, nodeType, get_string_val] at h

/-- C6: ArrayNode::set / insert / remove (node.rs): starting from the
array [true, false, true, 49], setting index 1 to the string "foo",
inserting the real -2.5 (dyadic -5 * 2^-1) at index 0, then removing
index 3, yields a node structurally equal to [-2.5, true, "foo", 49]. -/
theorem c6_array_mutation_example :
    nodeEq
      (.array (arrayRemove
        (arrayInsert
          (arraySet [.bool true, .bool false, .bool true, .uint 49] 1
            (.string [102, 111, 111]))
          0 (.real ⟨-5, -1⟩))
        3))
      (.array [.real ⟨-5, -1⟩, .bool true, .string [102, 111, 111], .uint 49]) = true := by
  rfl

/-- C5: OwnedNode::deserialize / from_xml / from_binary (node.rs):
whenever the engine reader writes a null node the deserializer returns
None (for every reader and input), and the malformed input "??" (bytes
63, 63) yields None from both from_xml and from_binary. -/
theorem c5_malformed_input_yields_none :
    (∀ (reader : List Nat → Option PlistVal) (data : List Nat),
      reader data = none → deserialize reader data = none) ∧
    from_xml [63, 63] = none ∧ from_binary [63, 63] = none := by
  refine ⟨?_, rfl, rfl⟩
  intro reader data h
  simp [deserialize, h]

/-- Witness for C5: a reader that writes a null node on the input "??". -/
theorem c5_witness :
    deserialize (fun _ => none) [63, 63] = none :=
  c5_malformed_input_yields_none.1 (fun _ => none) [63, 63] rfl



/-- Characterization of the array child comparison: true exactly for
equal children in the same order. -/
theorem nodeListEq_iff (xs ys : List PlistVal) :
    nodeListEq xs ys = true ↔ List.Forall₂ (fun a b => nodeEq a b = true) xs ys := by
  induction xs generalizing ys with
  | nil => cases ys <;> simp [nodeListEq]
  | cons x xs ih =>
      cases ys with
      | nil => simp [nodeListEq]
      | cons y ys => simp [nodeListEq, ih]

/-- Characterization of the dictionary all-loop: every left entry is
mapped on the right, at its own key, to an equal value. -/
theorem nodeDictLe_iff (xs ys : List (List Nat × PlistVal)) :
    nodeDictLe xs ys = true ↔
      ∀ kv ∈ xs, ∃ w, dictGet ys kv.1 = some w ∧ nodeEq kv.2 w = true := by
  induction xs with
  | nil => simp [nodeDictLe]
  | cons kv xs ih =>
      obtain ⟨k, v⟩ := kv
      simp only [nodeDictLe, Bool.and_eq_true, ih, List.mem_cons]
      cases h : dictGet ys k with
      | none => simp [h]
      | some w =>
          constructor
          · rintro ⟨h1, h2⟩
            rintro kv (rfl | hm)
            · exact ⟨w, h, h1⟩
            · exact h2 _ hm
          · rintro h1
            refine ⟨?_, fun kv hm => h1 _ (Or.inr hm)⟩
            obtain ⟨w', hw', he⟩ := h1 (k, v) (Or.inl rfl)
            rw [h] at hw'
            cases hw'
            exact he

/-- C2: PartialEq for Node (node.rs): two array nodes are equal iff their
children are equal in the same order; two dictionary nodes are equal iff
they have the same length and every key of the left maps on the right to
an equal value (order-insensitive); every other pair of nodes compares by
the engine value comparison, not by address (the model has no addresses:
nodes are compared as values throughout). -/
theorem c2_structural_equality :
    (∀ xs ys, nodeEq (.array xs) (.array ys) = true ↔
      List.Forall₂ (fun a b => nodeEq a b = true) xs ys) ∧
    (∀ xs ys, nodeEq (.dict xs) (.dict ys) = true ↔
      (xs.length = ys.length ∧
        ∀ kv ∈ xs, ∃ w, dictGet ys kv.1 = some w ∧ nodeEq kv.2 w = true)) ∧
    (∀ a b, ¬(nodeType a = .Array ∧ nodeType b = .Array) →
      ¬(nodeType a = .Dict ∧ nodeType b = .Dict) →
      nodeEq a b = engineCompare a b) := by
  refine ⟨fun xs ys => ?_, fun xs ys => ?_, fun a b h1 h2 => ?_⟩
  · show nodeListEq xs ys = true ↔ _
    exact nodeListEq_iff xs ys
  · show (xs.length == ys.length && nodeDictLe xs ys) = true ↔ _
    simp [nodeDictLe_iff]
  · cases a <;> cases b <;> try rfl
    · exact absurd ⟨rfl, rfl⟩ h1
    · exact absurd ⟨rfl, rfl⟩ h2

/-- Witness for C2 on a concrete array pair and a scalar pair. -/
theorem c2_witness :
    (nodeEq (.array [.bool true]) (.array [.bool false]) = true ↔
      List.Forall₂ (fun a b => nodeEq a b = true) [PlistVal.bool true] [PlistVal.bool false]) ∧
    nodeEq (.bool true) (.uint 1) = engineCompare (.bool true) (.uint 1) :=
  ⟨c2_structural_equality.1 [.bool true] [.bool false],
    c2_structural_equality.2.2 (.bool true) (.uint 1) (by simp [nodeType]) (by simp [nodeType])⟩



/-- Splitting the node at a path at its last step. -/
theorem nodeAt_concat (root : PlistVal) (p : List Step) (s : Step) :
    nodeAt root (p ++ [s]) = (nodeAt root p).bind (fun v => childAt v s) := by
  induction p generalizing root with
  | nil => cases h : childAt root s <;> simp [nodeAt, h]
  | cons s0 p ih =>
      simp only [List.cons_append, nodeAt]
      cases childAt root s0 with
      | none => simp
      | some c => simpa using ih c

/-- C8: Node::get_index_in_array and Node::get_key_in_dict (node.rs): for
a node at a valid path in an owned tree, get_index_in_array is Some
exactly when the direct parent exists and is an array node — and then the
index addresses this very node in the parent — and get_key_in_dict is
Some exactly when the direct parent is a dictionary node — and then the
key addresses this very node; in all other cases both return None. -/
theorem c8_parent_queries (root : PlistVal) (path : List Step)
    (hwf : (nodeAt root path).isSome = true) :
    ((get_index_in_array root path).isSome = true ↔
      ∃ p, parentAt root path = some p ∧ nodeType p = .Array) ∧
    ((get_key_in_dict root path).isSome = true ↔
      ∃ p, parentAt root path = some p ∧ nodeType p = .Dict) ∧
    (∀ i, get_index_in_array root path = some i →
      ∃ p, parentAt root path = some p ∧ childAt p (.inArr i) = nodeAt root path) ∧
    (∀ k, get_key_in_dict root path = some k →
      ∃ p, parentAt root path = some p ∧ childAt p (.inDict k) = nodeAt root path) := by
  rcases List.eq_nil_or_concat path with rfl | ⟨q, s, rfl⟩
  · simp [get_index_in_array, get_key_in_dict, dict_item_key, parentAt]
  · simp only [List.concat_eq_append] at hwf ⊢
    have hne : q ++ [s] ≠ [] := by simp
    have hpar : parentAt root (q ++ [s]) = nodeAt root q := by
      simp [parentAt, List.dropLast_concat]
    rw [nodeAt_concat] at hwf
    cases hq : nodeAt root q with
    | none => rw [hq] at hwf; simp at hwf
    | some p =>
        rw [hq] at hwf
        simp only [Option.some_bind] at hwf
        cases hc : childAt p s with
        | none => rw [hc] at hwf; simp at hwf
        | some n =>
            have hlast : (q ++ [s]).getLast? = some s := by
              simp [List.getLast?_concat]
            have hnode : nodeAt root (q ++ [s]) = some n := by
              rw [nodeAt_concat, hq, Option.some_bind, hc]
            refine ⟨?_, ?_, ?_, ?_⟩
            · constructor
              · intro hsome
                refine ⟨p, by rw [hpar, hq], ?_⟩
                by_contra hty
                simp [get_index_in_array, hpar, hq, hty] at hsome
              · rintro ⟨p', hp', hty⟩
                rw [hpar, hq] at hp'
                cases hp'
                simp [get_index_in_array, hpar, hq, hty]
            · constructor
              · intro hsome
                refine ⟨p, by rw [hpar, hq], ?_⟩
                by_contra hty
                simp [get_key_in_dict, dict_item_key, hpar, hq, hty] at hsome
              · rintro ⟨p', hp', hty⟩
                rw [hpar, hq] at hp'
                cases hp'
                cases s with
                | inArr i =>
                    cases p <;> simp [childAt] at hc
                    simp [nodeType] at hty
                | inDict k =>
                    simp [get_key_in_dict, dict_item_key, hpar, hq, hty, hlast]
            · intro i hi
              refine ⟨p, by rw [hpar, hq], ?_⟩
              have hty : nodeType p = .Array := by
                by_contra hty
                simp [get_index_in_array, hpar, hq, hty] at hi
              cases s with
              | inArr j =>
                  have : i = j := by
                    simp [get_index_in_array, hpar, hq, hty, item_index, hlast] at hi
                    omega
                  subst this
                  rw [hnode, hc]
              | inDict k =>
                  cases p <;> simp [childAt] at hc
                  simp [nodeType] at hty
            · intro k hk
              refine ⟨p, by rw [hpar, hq], ?_⟩
              have hty : nodeType p = .Dict := by
                by_contra hty
                simp [get_key_in_dict, dict_item_key, hpar, hq, hty] at hk
              cases s with
              | inArr j =>
                  cases p <;> simp [childAt] at hc
                  simp [nodeType] at hty
              | inDict k' =>
                  have : k = k' := by
                    simp [get_key_in_dict, dict_item_key, hpar, hq, hty, hlast] at hk
                    exact hk.symm
                  subst this
                  rw [hnode, hc]

/-- Witness for C8 at the first child of a one-element array. -/
theorem c8_witness :
    (nodeAt (.array [.bool true]) [.inArr 0]).isSome = true ∧
    get_index_in_array (.array [.bool true]) [.inArr 0] = some 0 ∧
    ((get_index_in_array (.array [.bool true]) [.inArr 0]).isSome = true ↔
      ∃ p, parentAt (.array [.bool true]) [.inArr 0] = some p ∧ nodeType p = .Array) :=
  ⟨by rfl, by rfl, (c8_parent_queries (.array [.bool true]) [.inArr 0] (by rfl)).1⟩



/-- Reduction of the try-operator on a successful intermediate result. -/
theorem ok_bind {a : Type} {b : Type} (x : a) (g : a → Except PlistError b) :
    (Except.ok x >>= g) = g x := rfl

/-- Reduction of the try-operator on an error: the error propagates. -/
theorem error_bind {a : Type} {b : Type} (e : PlistError) (g : a → Except PlistError b) :
    ((Except.error e : Except PlistError a) >>= g) = Except.error e := rfl

/-- C7: FromPlistNode for Vec and the map impls (native.rs): when the
members before position i convert successfully and the member at position
i fails with error e, the whole conversion of the array or dictionary
node returns exactly that error — the first failing member aborts the
conversion (for the map loop: whatever the accumulated map so far), and no
partial native result is returned. -/
theorem c7_first_member_failure_aborts (f : PlistVal → Except PlistError NVal) :
    (∀ (xs : List PlistVal) (i : Nat) (e : PlistError),
      (∀ j, j < i → ∃ w, f (xs.getD j .null) = .ok w) →
      i < xs.length → f (xs.getD i .null) = .error e →
      vecFromChildren f xs = .error e ∧ vecFromNode f (.array xs) = .error e) ∧
    (∀ (es : List (List Nat × PlistVal)) (acc : List (List Nat × NVal)) (i : Nat)
      (e : PlistError),
      (∀ j, j < i → ∃ w, f (es.getD j ([], .null)).2 = .ok w) →
      i < es.length → f (es.getD i ([], .null)).2 = .error e →
      mapFromEntries f es acc = .error e ∧ mapFromNode f (.dict es) = .error e) := by
  constructor
  · have key : ∀ (xs : List PlistVal) (i : Nat) (e : PlistError),
        (∀ j, j < i → ∃ w, f (xs.getD j .null) = .ok w) →
        i < xs.length → f (xs.getD i .null) = .error e →
        vecFromChildren f xs = .error e := by
      intro xs
      induction xs with
      | nil => intro i e _ hlt; simp at hlt
      | cons x xs ih =>
          intro i e hok hlt hbad
          cases i with
          | zero =>
              simp only [List.getD_cons_zero] at hbad
              simp [vecFromChildren, hbad, error_bind]
          | succ i =>
              obtain ⟨w, hw⟩ := hok 0 (Nat.succ_pos i)
              simp only [List.getD_cons_zero] at hw
              have tail := ih i e
                (fun j hj => by
                  obtain ⟨w', hw'⟩ := hok (j + 1) (by omega)
                  exact ⟨w', by simpa using hw'⟩)
                (by simpa using hlt) (by simpa using hbad)
              simp [vecFromChildren, hw, tail, ok_bind, error_bind]
    intro xs i e hok hlt hbad
    have h1 := key xs i e hok hlt hbad
    refine ⟨h1, ?_⟩
    simp [vecFromNode, asArray, expect_type, nodeType, h1, ok_bind]
  · have key : ∀ (es : List (List Nat × PlistVal)) (acc : List (List Nat × NVal))
        (i : Nat) (e : PlistError),
        (∀ j, j < i → ∃ w, f (es.getD j ([], .null)).2 = .ok w) →
        i < es.length → f (es.getD i ([], .null)).2 = .error e →
        mapFromEntries f es acc = .error e := by
      intro es
      induction es with
      | nil => intro acc i e _ hlt; simp at hlt
      | cons kv es ih =>
          obtain ⟨k, v⟩ := kv
          intro acc i e hok hlt hbad
          cases i with
          | zero =>
              simp only [List.getD_cons_zero] at hbad
              simp [mapFromEntries, hbad, error_bind]
          | succ i =>
              obtain ⟨w, hw⟩ := hok 0 (Nat.succ_pos i)
              simp only [List.getD_cons_zero] at hw
              have tail := ih (sortedInsert acc k w) i e
                (fun j hj => by
                  obtain ⟨w', hw'⟩ := hok (j + 1) (by omega)
                  exact ⟨w', by simpa using hw'⟩)
                (by simpa using hlt) (by simpa using hbad)
              simp [mapFromEntries, hw, tail, ok_bind]
    intro es acc i e hok hlt hbad
    have h1 := key es acc i e hok hlt hbad
    refine ⟨h1, ?_⟩
    have h2 := key es [] i e hok hlt hbad
    simp [mapFromNode, asDict, expect_type, nodeType, h2, ok_bind]

/-- Witness for C7: converting [true, 7] as a Vec of bool fails at member
1 with UnsupportedType(UInt). -/
theorem c7_witness :
    vecFromChildren (fromNode .tBool) [.bool true, .uint 7] =
      .error (.UnsupportedType .UInt) ∧
    vecFromNode (fromNode .tBool) (.array [.bool true, .uint 7]) =
      .error (.UnsupportedType .UInt) :=
  (c7_first_member_failure_aborts (fromNode .tBool)).1 [.bool true, .uint 7] 1
    (.UnsupportedType .UInt)
    (fun j hj => ⟨.vBool true, by
      have : j = 0 := by omega
      subst this
      rfl⟩)
    (by decide) (by rfl)




/-- The (sec, nsec) pair of ToPlistNode for SystemTime is the Euclidean
(= floor, for this positive divisor) division of the instant by 1e9, as
long as the seconds do not overflow the as-i64 cast. -/
theorem secNsec_ediv (t : Int) (hb : t.natAbs < 2 ^ 63 * 10 ^ 9) :
    ((systemTimeSecNsec t).1 = t / 10 ^ 9) ∧
      (((systemTimeSecNsec t).2 : Int) = t % 10 ^ 9) := by
  simp only [systemTimeSecNsec, wrapS]
  split_ifs <;>
    simp only [apply_ite (Prod.fst (α := Int) (β := Nat)),
      apply_ite (Prod.snd (α := Int) (β := Nat)),
      apply_ite (fun n : Nat => (n : Int))] <;>
    constructor <;> omega



set_option maxRecDepth 8000 in
/-- The date node built from an instant whose floor-seconds sit in the
i32 window stores exactly (floor-seconds - offset, remainder
microseconds). -/
theorem toNode_date_spec (t : Int) (hb : t.natAbs < 2 ^ 63 * 10 ^ 9)
    (hlo : -2 ^ 31 ≤ t / 10 ^ 9 - TIMESTAMP_OFFSET)
    (hhi : t / 10 ^ 9 - TIMESTAMP_OFFSET < 2 ^ 31) :
    systemTimeToNode t =
      .date (t / 10 ^ 9 - TIMESTAMP_OFFSET) ((t % 10 ^ 9) / 1000) := by
  obtain ⟨h1, h2⟩ := secNsec_ediv t hb
  have hv : (systemTimeSecNsec t).2 = (t % 10 ^ 9).toNat := by omega
  simp only [TIMESTAMP_OFFSET] at hlo hhi
  simp only [systemTimeToNode, h1, hv, TIMESTAMP_OFFSET]
  simp only [PlistVal.date.injEq]
  refine ⟨?_, ?_⟩ <;> simp only [wrapS] <;> split_ifs <;> omega

/-- FromPlistNode for SystemTime on a date node reduces to the
(sec, usec) decoding. -/
theorem systemTimeFromNode_date (s u : Int) :
    systemTimeFromNode (.date s u) = .ok (systemTimeFromSecUsec s u) := rfl

/-- Date round trip on the representable window, for instants on whole
microseconds. -/
theorem date_roundtrip (t : Int) (hb : t.natAbs < 2 ^ 63 * 10 ^ 9)
    (hlo : -2 ^ 31 ≤ t / 10 ^ 9 - TIMESTAMP_OFFSET)
    (hhi : t / 10 ^ 9 - TIMESTAMP_OFFSET < 2 ^ 31)
    (hus : t % 1000 = 0) :
    systemTimeFromNode (systemTimeToNode t) = .ok t := by
  rw [toNode_date_spec t hb hlo hhi, systemTimeFromNode_date]
  simp only [Except.ok.injEq]
  simp only [systemTimeFromSecUsec, usecNanos, wrapU, TIMESTAMP_OFFSET] at *
  split_ifs <;> omega



/-- C3 (amended with the storage window forced by the i32 date payload):
for every instant strictly before 1970 on a whole microsecond whose
floor-seconds, shifted to the 2001 epoch, fit the i32 seconds field,
encoding to a date node and decoding returns the same instant; and the
encoding decomposes the negative nanosecond count by floor division into
seconds and a non-negative sub-second remainder (hence non-negative
microseconds), not by truncation toward zero. -/
theorem c3_pre_epoch_date_roundtrip (t : Int)
    (hneg : t < 0) (hus : t % 1000 = 0)
    (hwin : -2 ^ 31 ≤ t.fdiv (10 ^ 9) - TIMESTAMP_OFFSET) :
    systemTimeFromNode (systemTimeToNode t) = .ok t ∧
    (systemTimeSecNsec t).1 = t.fdiv (10 ^ 9) ∧
    ((systemTimeSecNsec t).2 : Int) = t.fmod (10 ^ 9) ∧
    0 ≤ t.fmod (10 ^ 9) ∧
    systemTimeToNode t =
      .date (t.fdiv (10 ^ 9) - TIMESTAMP_OFFSET) (t.fmod (10 ^ 9) / 1000) := by
  have hfd : t.fdiv (10 ^ 9) = t / 10 ^ 9 := Int.fdiv_eq_ediv _ (by norm_num)
  have hfm : t.fmod (10 ^ 9) = t % 10 ^ 9 := Int.fmod_eq_emod _ (by norm_num)
  rw [hfd] at hwin
  simp only [TIMESTAMP_OFFSET] at hwin
  have hb : t.natAbs < 2 ^ 63 * 10 ^ 9 := by omega
  have hhi : t / 10 ^ 9 - TIMESTAMP_OFFSET < 2 ^ 31 := by
    simp only [TIMESTAMP_OFFSET]
    omega
  have hlo : -2 ^ 31 ≤ t / 10 ^ 9 - TIMESTAMP_OFFSET := by
    simp only [TIMESTAMP_OFFSET]
    omega
  obtain ⟨h1, h2⟩ := secNsec_ediv t hb
  refine ⟨date_roundtrip t hb hlo hhi hus, ?_, ?_, ?_, ?_⟩
  · rw [h1, hfd]
  · rw [h2, hfm]
  · omega
  · rw [hfd, hfm]
    exact toNode_date_spec t hb hlo hhi

/-- Witness for C3 at the 1966 instant used by the crate's own
round-trip test (epoch minus 123456789012 ms). -/
theorem c3_witness :
    systemTimeFromNode (systemTimeToNode (-123456789012000000)) =
      .ok (-123456789012000000) :=
  (c3_pre_epoch_date_roundtrip (-123456789012000000) (by decide) (by decide)
    (by decide)).1

/-- C3 counterexample to the unrestricted claim: the pre-1970 instant
at -1200000000 whole seconds (early 1932, before the i32 window) encodes
to a wrapped seconds field and decodes to a year-2068 instant, not to
itself. -/
theorem c3_counterexample :
    ((-1200000000000000000 : Int) < 0) ∧
    ((-1200000000000000000 : Int) % 1000 = 0) ∧
    systemTimeFromNode (systemTimeToNode (-1200000000000000000)) =
      .ok (3094967296000000000) ∧
    systemTimeFromNode (systemTimeToNode (-1200000000000000000)) ≠
      .ok (-1200000000000000000) := by
  refine ⟨by decide, by decide, by rfl, ?_⟩
  intro h
  rw [(by rfl : systemTimeFromNode (systemTimeToNode (-1200000000000000000)) =
    Except.ok (3094967296000000000 : Int))] at h
  exact absurd (Except.ok.inj h) (by decide)




/-- Irreflexivity of the byte order. -/
theorem bytesLt_irrefl (a : List Nat) : bytesLt a a = false := by
  induction a with
  | nil => rfl
  | cons x xs ih => simp [bytesLt, ih]

/-- Transitivity of the byte order. -/
theorem bytesLt_trans {a b c : List Nat} (h1 : bytesLt a b = true)
    (h2 : bytesLt b c = true) : bytesLt a c = true := by
  induction a generalizing b c with
  | nil =>
      cases b with
      | nil => simp [bytesLt] at h1
      | cons y ys =>
          cases c with
          | nil => simp [bytesLt] at h2
          | cons z zs => rfl
  | cons x xs ih =>
      cases b with
      | nil => simp [bytesLt] at h1
      | cons y ys =>
          cases c with
          | nil => simp [bytesLt] at h2
          | cons z zs =>
              simp only [bytesLt] at h1 h2 ⊢
              split_ifs at h1 h2 ⊢ <;> try omega
              all_goals first
                | rfl
                | (exact ih h1 h2)

/-- Strictly smaller keys are distinct. -/
theorem bytesLt_ne {a b : List Nat} (h : bytesLt a b = true) : a ≠ b := by
  intro rfl_eq
  subst rfl_eq
  rw [bytesLt_irrefl] at h
  exact absurd h (by simp)

/-- In an ascending key list the head is below every later key. -/
theorem ascKeys_head_lt {k : List Nat} {ks : List (List Nat)}
    (h : ascKeys (k :: ks) = true) : ∀ k2 ∈ ks, bytesLt k k2 = true := by
  induction ks generalizing k with
  | nil => intro k2 hk; simp at hk
  | cons a r ih =>
      simp only [ascKeys, Bool.and_eq_true] at h
      intro k2 hk
      rcases List.mem_cons.mp hk with rfl | hk2
      · exact h.1
      · exact bytesLt_trans h.1 (ih h.2 k2 hk2)

/-- The tail of an ascending key list is ascending. -/
theorem ascKeys_tail {k : List Nat} {ks : List (List Nat)}
    (h : ascKeys (k :: ks) = true) : ascKeys ks = true := by
  cases ks with
  | nil => rfl
  | cons a r =>
      simp only [ascKeys, Bool.and_eq_true] at h
      exact h.2



/-- Asymmetry of the byte order. -/
theorem bytesLt_asymm {a b : List Nat} (h : bytesLt a b = true) :
    bytesLt b a = false := by
  by_contra hc
  have h2 : bytesLt b a = true := by
    cases hba : bytesLt b a
    · exact absurd hba hc
    · rfl
  have := bytesLt_trans h h2
  rw [bytesLt_irrefl] at this
  exact absurd this (by simp)



/-- plist_dict_set_item with a fresh key appends the entry. -/
theorem dictSet_append (acc : List (List Nat × PlistVal)) (k : List Nat)
    (v : PlistVal) (h : ∀ e ∈ acc, e.1 ≠ k) :
    dictSet acc k v = acc ++ [(k, v)] := by
  induction acc with
  | nil => rfl
  | cons e rest ih =>
      obtain ⟨k2, v2⟩ := e
      have hne : k2 ≠ k := h (k2, v2) (List.mem_cons_self _ _)
      simp only [dictSet, if_neg hne, List.cons_append, List.cons.injEq, true_and]
      exact ih fun e he => h e (List.mem_cons_of_mem _ he)

/-- Inserting entries with ascending (hence fresh) keys into a
dictionary in order appends them all. -/
theorem foldl_dictSet (qs : List (List Nat × PlistVal)) :
    ∀ acc : List (List Nat × PlistVal),
    ascKeys (qs.map Prod.fst) = true →
    (∀ a ∈ acc, ∀ q ∈ qs, a.1 ≠ q.1) →
    qs.foldl (fun d e => dictSet d e.1 e.2) acc = acc ++ qs := by
  induction qs with
  | nil => intro acc _ _; simp
  | cons q qs ih =>
      obtain ⟨k, v⟩ := q
      intro acc hasc hdisj
      have hstep : dictSet acc k v = acc ++ [(k, v)] :=
        dictSet_append acc k v fun e he => hdisj e he (k, v) (List.mem_cons_self _ _)
      have hlt : ∀ q2 ∈ qs, bytesLt k q2.1 = true := by
        intro q2 hq2
        exact ascKeys_head_lt (by simpa using hasc) q2.1
          (List.mem_map_of_mem Prod.fst hq2)
      have hrec := ih (acc ++ [(k, v)])
        (ascKeys_tail (by simpa using hasc))
        (by
          intro a ha q2 hq2
          rcases List.mem_append.mp ha with ha1 | ha2
          · exact hdisj a ha1 q2 (List.mem_cons_of_mem _ hq2)
          · simp at ha2
            subst ha2
            exact bytesLt_ne (hlt q2 hq2))
      simp only [List.foldl_cons, hstep, hrec, List.append_assoc,
        List.singleton_append]

/-- BTreeMap::insert of a key above everything in the map appends. -/
theorem sortedInsert_append {α : Type} (acc : List (List Nat × α)) (k : List Nat)
    (v : α) (h : ∀ e ∈ acc, bytesLt e.1 k = true) :
    sortedInsert acc k v = acc ++ [(k, v)] := by
  induction acc with
  | nil => rfl
  | cons e rest ih =>
      obtain ⟨k2, v2⟩ := e
      have hlt : bytesLt k2 k = true := h (k2, v2) (List.mem_cons_self _ _)
      have h1 : bytesLt k k2 = false := bytesLt_asymm hlt
      have h2 : k ≠ k2 := fun he => bytesLt_ne hlt he.symm
      simp only [sortedInsert, h1, if_neg h2, List.cons_append, List.cons.injEq,
        true_and, Bool.false_eq_true, if_false]
      exact ih fun e he => h e (List.mem_cons_of_mem _ he)

/-- The map conversion loop over entries with ascending keys, whose
values all convert, rebuilds exactly those entries after the
accumulated prefix. -/
theorem mapFromEntries_ok (f : PlistVal → Except PlistError NVal) :
    ∀ (qs : List (List Nat × PlistVal)) (es : List (List Nat × NVal))
      (acc : List (List Nat × NVal)),
    List.Forall₂ (fun (q : List Nat × PlistVal) (e : List Nat × NVal) =>
      q.1 = e.1 ∧ f q.2 = .ok e.2) qs es →
    ascKeys (es.map Prod.fst) = true →
    (∀ a ∈ acc, ∀ e ∈ es, bytesLt a.1 e.1 = true) →
    mapFromEntries f qs acc = .ok (acc ++ es) := by
  intro qs
  induction qs with
  | nil =>
      intro es acc hf _ _
      cases hf
      simp [mapFromEntries]
  | cons q qs ih =>
      intro es acc hf hasc hacc
      obtain ⟨k, p⟩ := q
      cases hf with
      | cons hqe htail =>
          rename_i e es2
          obtain ⟨k2, v2⟩ := e
          obtain ⟨hk, hv⟩ := hqe
          simp only at hk hv
          subst hk
          have hins : sortedInsert acc k v2 = acc ++ [(k, v2)] :=
            sortedInsert_append acc k v2 fun a ha =>
              hacc a ha (k, v2) (List.mem_cons_self _ _)
          have hlt2 : ∀ e2 ∈ es2, bytesLt k e2.1 = true := by
            intro e2 he2
            exact ascKeys_head_lt (by simpa using hasc) e2.1
              (List.mem_map_of_mem Prod.fst he2)
          have hrec := ih es2 (acc ++ [(k, v2)]) htail
            (ascKeys_tail (by simpa using hasc))
            (by
              intro a ha e2 he2
              rcases List.mem_append.mp ha with ha1 | ha2
              · exact hacc a ha1 e2 (List.mem_cons_of_mem _ he2)
              · simp at ha2
                subst ha2
                exact hlt2 e2 he2)
          simp only [mapFromEntries, hv, ok_bind, hins, hrec, List.append_assoc,
            List.singleton_append]




/-- Sequences: if every element round-trips, the element node list
round-trips elementwise in order. -/
theorem toNodeList_roundtrip (t : NTy)
    (ih : ∀ v, hasTy v t = true → rtOk v = true →
      ∃ p, toNode v = some p ∧ fromNode t p = .ok v) :
    ∀ l : List NVal, hasTyList l t = true → rtOkList l = true →
    ∃ ps, toNodeList l = some ps ∧
      vecFromChildren (fromNode t) ps = .ok l := by
  intro l
  induction l with
  | nil => intro _ _; exact ⟨[], rfl, rfl⟩
  | cons x xs ihl =>
      intro hty hrt
      simp only [hasTyList, Bool.and_eq_true] at hty
      simp only [rtOkList, Bool.and_eq_true] at hrt
      obtain ⟨p, hp, hfp⟩ := ih x hty.1 hrt.1
      obtain ⟨ps, hps, hfps⟩ := ihl hty.2 hrt.2
      refine ⟨p :: ps, ?_, ?_⟩
      · simp only [toNodeList, hp, hps]
      · simp only [vecFromChildren, hfp, ok_bind, hfps]
        rfl

/-- Map entries: converting NUL-free-keyed entries produces nodes with
the same keys whose values convert back. -/
theorem toNodeEntries_roundtrip (t : NTy)
    (ih : ∀ v, hasTy v t = true → rtOk v = true →
      ∃ p, toNode v = some p ∧ fromNode t p = .ok v) :
    ∀ es : List (List Nat × NVal), hasTyMap es t = true → rtOkMap es = true →
    ∃ qs, toNodeEntries es = some qs ∧
      qs.map Prod.fst = es.map Prod.fst ∧
      List.Forall₂ (fun (q : List Nat × PlistVal) (e : List Nat × NVal) =>
        q.1 = e.1 ∧ fromNode t q.2 = .ok e.2) qs es := by
  intro es
  induction es with
  | nil => intro _ _; exact ⟨[], rfl, rfl, List.Forall₂.nil⟩
  | cons kv es ihe =>
      obtain ⟨k, v⟩ := kv
      intro hty hrt
      simp only [hasTyMap, Bool.and_eq_true] at hty
      simp only [rtOkMap, Bool.and_eq_true, Bool.not_eq_true'] at hrt
      obtain ⟨p, hp, hfp⟩ := ih v hty.1 hrt.1.2
      obtain ⟨qs, hqs, hkeys, hpairs⟩ := ihe hty.2 hrt.2
      refine ⟨(k, p) :: qs, ?_, ?_, ?_⟩
      · simp only [toNodeEntries, hrt.1.1, hp, hqs]
        simp
      · simp [hkeys]
      · exact List.Forall₂.cons ⟨rfl, hfp⟩ hpairs



/-- C1 (amended to the convertible domain): for every native value of a
supported type shape — booleans, the u16/i16/u32/i32/u64/i64/usize/isize
and f32/f64 widths, strings and map keys without interior NUL, byte
blobs, timestamps on whole microseconds inside the i32 date window, and
sequences and ordered (BTreeMap) key-value mappings of such values —
to_plist_node succeeds and from_plist_node recovers exactly the original
value. -/
theorem c1_native_roundtrip (ty : NTy) (v : NVal)
    (hty : hasTy v ty = true) (hrt : rtOk v = true) :
    ∃ p, toNode v = some p ∧ fromNode ty p = .ok v := by
  induction ty generalizing v with
  | tBool =>
      cases v <;> simp only [hasTy, Bool.false_eq_true] at hty
      rename_i b
      exact ⟨.bool b, rfl, rfl⟩
  | tU16 =>
      cases v <;> simp only [hasTy, Bool.false_eq_true, decide_eq_true_eq] at hty
      rename_i n
      refine ⟨.uint (wrapU 64 (n : Int)), rfl, ?_⟩
      rw [show fromNode .tU16 (.uint (wrapU 64 (n : Int))) =
        .ok (.vNat (wrapU 64 (n : Int) % 2 ^ 16)) from rfl]
      rw [show wrapU 64 (n : Int) % 2 ^ 16 = n from by simp only [wrapU]; omega]
  | tU32 =>
      cases v <;> simp only [hasTy, Bool.false_eq_true, decide_eq_true_eq] at hty
      rename_i n
      refine ⟨.uint (wrapU 64 (n : Int)), rfl, ?_⟩
      rw [show fromNode .tU32 (.uint (wrapU 64 (n : Int))) =
        .ok (.vNat (wrapU 64 (n : Int) % 2 ^ 32)) from rfl]
      rw [show wrapU 64 (n : Int) % 2 ^ 32 = n from by simp only [wrapU]; omega]
  | tU64 =>
      cases v <;> simp only [hasTy, Bool.false_eq_true, decide_eq_true_eq] at hty
      rename_i n
      refine ⟨.uint (wrapU 64 (n : Int)), rfl, ?_⟩
      rw [show fromNode .tU64 (.uint (wrapU 64 (n : Int))) =
        .ok (.vNat (wrapU 64 (n : Int))) from rfl]
      rw [show wrapU 64 (n : Int) = n from by simp only [wrapU]; omega]
  | tUsize =>
      cases v <;> simp only [hasTy, Bool.false_eq_true, decide_eq_true_eq] at hty
      rename_i n
      refine ⟨.uint (wrapU 64 (n : Int)), rfl, ?_⟩
      rw [show fromNode .tUsize (.uint (wrapU 64 (n : Int))) =
        .ok (.vNat (wrapU 64 (n : Int))) from rfl]
      rw [show wrapU 64 (n : Int) = n from by simp only [wrapU]; omega]
  | tI16 =>
      cases v <;> simp only [hasTy, Bool.false_eq_true, Bool.and_eq_true,
        decide_eq_true_eq] at hty
      rename_i i
      refine ⟨.uint (wrapU 64 i), rfl, ?_⟩
      rw [show fromNode .tI16 (.uint (wrapU 64 i)) =
        .ok (.vInt (wrapS 16 ((wrapU 64 i : Nat) : Int))) from rfl]
      rw [show wrapS 16 ((wrapU 64 i : Nat) : Int) = i from by
        simp only [wrapS, wrapU]
        split_ifs <;> omega]
  | tI32 =>
      cases v <;> simp only [hasTy, Bool.false_eq_true, Bool.and_eq_true,
        decide_eq_true_eq] at hty
      rename_i i
      refine ⟨.uint (wrapU 64 i), rfl, ?_⟩
      rw [show fromNode .tI32 (.uint (wrapU 64 i)) =
        .ok (.vInt (wrapS 32 ((wrapU 64 i : Nat) : Int))) from rfl]
      rw [show wrapS 32 ((wrapU 64 i : Nat) : Int) = i from by
        simp only [wrapS, wrapU]
        split_ifs <;> omega]
  | tI64 =>
      cases v <;> simp only [hasTy, Bool.false_eq_true, Bool.and_eq_true,
        decide_eq_true_eq] at hty
      rename_i i
      refine ⟨.uint (wrapU 64 i), rfl, ?_⟩
      rw [show fromNode .tI64 (.uint (wrapU 64 i)) =
        .ok (.vInt (wrapS 64 ((wrapU 64 i : Nat) : Int))) from rfl]
      rw [show wrapS 64 ((wrapU 64 i : Nat) : Int) = i from by
        simp only [wrapS, wrapU]
        split_ifs <;> omega]
  | tIsize =>
      cases v <;> simp only [hasTy, Bool.false_eq_true, Bool.and_eq_true,
        decide_eq_true_eq] at hty
      rename_i i
      refine ⟨.uint (wrapU 64 i), rfl, ?_⟩
      rw [show fromNode .tIsize (.uint (wrapU 64 i)) =
        .ok (.vInt (wrapS 64 ((wrapU 64 i : Nat) : Int))) from rfl]
      rw [show wrapS 64 ((wrapU 64 i : Nat) : Int) = i from by
        simp only [wrapS, wrapU]
        split_ifs <;> omega]
  | tF32 =>
      cases v <;> simp only [hasTy, Bool.false_eq_true] at hty
      rename_i q
      refine ⟨.real q, rfl, ?_⟩
      rw [show fromNode .tF32 (.real q) = .ok (.vF (f64_as_f32 q)) from rfl]
      rw [show f64_as_f32 q = q from by simp [f64_as_f32, hty]]
  | tF64 =>
      cases v <;> simp only [hasTy, Bool.false_eq_true] at hty
      rename_i q
      exact ⟨.real q, rfl, rfl⟩
  | tString =>
      cases v <;> simp only [hasTy, Bool.false_eq_true] at hty
      rename_i s
      simp only [rtOk, Bool.not_eq_true'] at hrt
      refine ⟨.string s, ?_, rfl⟩
      simp only [toNode, hrt]
      simp
  | tData =>
      cases v <;> simp only [hasTy, Bool.false_eq_true] at hty
      rename_i bs
      exact ⟨.data bs, rfl, rfl⟩
  | tTime =>
      cases v <;> simp only [hasTy, Bool.false_eq_true, decide_eq_true_eq] at hty
      rename_i tm
      simp only [rtOk, dateInRange, Bool.and_eq_true, beq_iff_eq,
        decide_eq_true_eq] at hrt
      obtain ⟨⟨hus, hb⟩, hwin1, hwin2⟩ := hrt
      obtain ⟨hsec, _⟩ := secNsec_ediv tm hb
      rw [hsec] at hwin1 hwin2
      refine ⟨systemTimeToNode tm, rfl, ?_⟩
      rw [show fromNode .tTime (systemTimeToNode tm) =
        (systemTimeFromNode (systemTimeToNode tm)).map NVal.vTime from rfl]
      rw [date_roundtrip tm hb hwin1 hwin2 hus]
      rfl
  | tSeq t ih =>
      cases v <;> simp only [hasTy, Bool.false_eq_true] at hty
      rename_i l
      simp only [rtOk] at hrt
      obtain ⟨ps, hps, hfps⟩ := toNodeList_roundtrip t ih l hty hrt
      refine ⟨.array ps, ?_, ?_⟩
      · simp only [toNode, hps]
        rfl
      · rw [show fromNode (.tSeq t) (.array ps) =
          (vecFromChildren (fromNode t) ps).map NVal.vSeq from rfl]
        rw [hfps]
        rfl
  | tMap t ih =>
      cases v <;> simp only [hasTy, Bool.false_eq_true, Bool.and_eq_true] at hty
      rename_i es
      simp only [rtOk] at hrt
      obtain ⟨htym, hasc⟩ := hty
      simp only [keysAsc] at hasc
      obtain ⟨qs, hqs, hkeys, hpairs⟩ := toNodeEntries_roundtrip t ih es htym hrt
      have hascq : ascKeys (qs.map Prod.fst) = true := by rw [hkeys]; exact hasc
      have hfold : qs.foldl (fun d e => dictSet d e.1 e.2) [] = qs := by
        have h := foldl_dictSet qs [] hascq (by intro a ha; simp at ha)
        simpa using h
      refine ⟨.dict qs, ?_, ?_⟩
      · simp only [toNode, hqs]
        show some (PlistVal.dict (List.foldl (fun d e => dictSet d e.1 e.2) [] qs)) =
          some (PlistVal.dict qs)
        rw [hfold]
      · rw [show fromNode (.tMap t) (.dict qs) =
          (mapFromEntries (fromNode t) qs []).map NVal.vMap from rfl]
        rw [mapFromEntries_ok (fromNode t) qs es [] hpairs hasc
          (by intro a ha; simp at ha)]
        rfl



/-- C1 counterexample to the unrestricted claim: the timestamp one
nanosecond after the epoch is a supported native value, but its date node
stores whole microseconds, so recovering yields the epoch instant, not
the original value. -/
theorem c1_counterexample :
    hasTy (.vTime 1) .tTime = true ∧
    toNode (.vTime 1) = some (.date (-978307200) 0) ∧
    fromNode .tTime (.date (-978307200) 0) = .ok (.vTime 0) ∧
    ¬∃ p, toNode (.vTime 1) = some p ∧ fromNode .tTime p = .ok (.vTime 1) := by
  refine ⟨by decide, by rfl, by rfl, ?_⟩
  rintro ⟨p, hp, hf⟩
  rw [(by rfl : toNode (.vTime 1) = some (.date (-978307200) 0))] at hp
  cases hp
  rw [(by rfl : fromNode .tTime (.date (-978307200) 0) = .ok (.vTime 0))] at hf
  have h2 := Except.ok.inj hf
  exact absurd (NVal.vTime.inj h2) (by decide)

/-- Witness for C1 at a two-entry map of u16 sequences. -/
theorem c1_witness :
    ∃ p, toNode (.vMap [([97], .vSeq [.vNat 3]), ([98], .vSeq [])]) = some p ∧
      fromNode (.tMap (.tSeq .tU16)) p =
        .ok (.vMap [([97], .vSeq [.vNat 3]), ([98], .vSeq [])]) :=
  c1_native_roundtrip (.tMap (.tSeq .tU16)) _ (by decide) (by decide)


end LibPlist
